import Mathlib

/-!
Verification of the audio loopback self-test (`alsa_test.cpp`):
shallow embedding of the FFT-based spectral analyzer, the sine signal
generator, the PCM stream lifecycle, the loopback orchestrator and the
exhaustive fallback pairing, together with theorems about them.

Machine floating point (`float`/`double`) is modelled by `ℚ`; the
transcendental parts (the FFT twiddle factors `polar(1, -2πk/N)`, complex
magnitude `std::abs`, and `sin`) have no exact rational value, so complex
arithmetic is abstracted as an operations record `CplxOps` and the sine
evaluation as a function argument.  Every theorem below holds for every
interpretation of these operations, hence in particular for the real
floating-point one.
-/

/-- Abstraction of `std::complex<float>` as used by `fft` and
`dominant_freq`: a carrier with the injection of a real sample
(`std::complex<float>(x, 0)`), addition, subtraction, multiplication by the
twiddle factor `std::polar(1.0f, -2π·k/N)` (as a function of `k` and `N`),
and the magnitude `std::abs` (a rational stand-in for the float result). -/
structure CplxOps (α : Type) where
  ofReal : ℚ → α
  add : α → α → α
  sub : α → α → α
  twiddleMul : ℕ → ℕ → α → α
  abs : α → ℚ

/-- `x[std::slice(start, len, step)]`: the `len` elements
`x[start], x[start+step], …` (out-of-range reads, which the source never
performs, give `dflt`). -/
def valSlice (x : List α) (dflt : α) (start len step : ℕ) : List α :=
  (List.range len).map fun i => x.getD (start + i * step) dflt

/-- Fuel-indexed body of the recursive radix-2 decimation-in-time `fft` of
`alsa_test.cpp`.  For `N ≤ 1` the input is returned unchanged; otherwise the
even- and odd-indexed halves (`slice(0, N/2, 2)` and `slice(1, N/2, 2)`) are
transformed recursively and recombined by the butterfly
`x[k] = even[k] + t`, `x[k+N/2] = even[k] - t` with
`t = polar(1, -2πk/N) * odd[k]`; for odd `N` the last position is never
written and keeps its original value (`drop (N/2 * 2)`).  The fuel only
bounds the recursion depth; `fft` supplies `x.length`, which always
suffices since each level halves the length. -/
def fftGo (C : CplxOps α) : ℕ → List α → List α
  | 0, x => x
  | fuel + 1, x =>
    let N := x.length
    if N ≤ 1 then x
    else
      let ev := fftGo C fuel (valSlice x (C.ofReal 0) 0 (N / 2) 2)
      let od := fftGo C fuel (valSlice x (C.ofReal 0) 1 (N / 2) 2)
      let lower := (List.range (N / 2)).map fun k =>
        C.add (ev.getD k (C.ofReal 0)) (C.twiddleMul k N (od.getD k (C.ofReal 0)))
      let upper := (List.range (N / 2)).map fun k =>
        C.sub (ev.getD k (C.ofReal 0)) (C.twiddleMul k N (od.getD k (C.ofReal 0)))
      lower ++ upper ++ x.drop (N / 2 * 2)

/-- `void fft(CArray& x)` of `alsa_test.cpp` (functional rendering: the
result list is the final content of the in-place-mutated valarray). -/
def fft (C : CplxOps α) (x : List α) : List α :=
  fftGo C x.length x

/-- Model of `std::max_element` on a vector of floats: `none` for the empty
range (`begin() == end()`), otherwise the index of the first element
attaining the maximum (`max_element` moves its candidate only on a strictly
greater element, so ties keep the earliest index). -/
def maxElementIdx : List ℚ → Option ℕ
  | [] => none
  | x :: xs => some ((x :: xs).indexOf (xs.foldl max x))

/-- The `freqs` vector of `dominant_freq`: magnitudes of the first
`buffsize/2` FFT bins of the buffer (imaginary parts zero), the mirrored
second half dropped. -/
def halfMagnitudes (C : CplxOps α) (buff : List ℚ) : List ℚ :=
  (List.range (buff.length / 2)).map fun i =>
    C.abs ((fft C (buff.map C.ofReal)).getD i (C.ofReal 0))

/-- `dominant_freq(buff, buffsize, rate)` of `alsa_test.cpp`: the argmax
bin index over the first half of the magnitude spectrum, converted to Hz by
`index / (buffsize / rate)`; `0.0` when the `freqs` vector is empty. -/
def dominant_freq (C : CplxOps α) (buff : List ℚ) (rate : ℚ) : ℚ :=
  match maxElementIdx (halfMagnitudes C buff) with
  | some i => (i : ℚ) / ((buff.length : ℚ) / rate)
  | none => 0

/-- A concrete instance of the complex-operations record, used only to
evaluate the model at concrete inputs in witness theorems. -/
def ratOps : CplxOps ℚ where
  ofReal := id
  add := (· + ·)
  sub := (· - ·)
  twiddleMul := fun _ _ z => z
  abs := fun z => |z|

theorem valSlice_length (x : List α) (dflt : α) (start len step : ℕ) :
    (valSlice x dflt start len step).length = len := by
  simp [valSlice]

theorem fftGo_length (C : CplxOps α) :
    ∀ (fuel : ℕ) (x : List α), (fftGo C fuel x).length = x.length := by
  intro fuel
  induction fuel with
  | zero => intro x; rfl
  | succ n ih =>
    intro x
    by_cases h : x.length ≤ 1
    · simp [fftGo, h]
    · simp only [fftGo, h, if_false]
      have hd : (x.drop (x.length / 2 * 2)).length = x.length - x.length / 2 * 2 := by
        simp
      simp only [List.length_append, List.length_map, List.length_range, hd]
      omega

/-- C10: `fft` returns an array of exactly the same length as its input —
for every length (zero, one, odd, non-power-of-two, power-of-two alike) —
so the scan of the first `buffsize/2` bins in `dominant_freq` is always in
bounds. -/
theorem fft_length_preserved (C : CplxOps α) (x : List α) :
    (fft C x).length = x.length ∧ x.length / 2 ≤ (fft C x).length := by
  have h := fftGo_length C x.length x
  exact ⟨h, by rw [fft, h]; omega⟩

theorem le_foldlMax {b c : ℚ} (h : b ≤ c) (l : List ℚ) : b ≤ l.foldl max c := by
  induction l generalizing c with
  | nil => exact h
  | cons y ys ih => exact ih (le_trans h (le_max_left c y))

theorem mem_le_foldlMax {a : ℚ} (c : ℚ) (l : List ℚ) (h : a ∈ l) : a ≤ l.foldl max c := by
  induction l generalizing c with
  | nil => cases h
  | cons y ys ih =>
    rcases List.mem_cons.mp h with rfl | hm
    · exact le_foldlMax (le_max_right c a) ys
    · exact ih _ hm

theorem foldlMax_mem (c : ℚ) (l : List ℚ) : l.foldl max c ∈ c :: l := by
  induction l generalizing c with
  | nil => simp
  | cons y ys ih =>
    have hmem := ih (max c y)
    rw [List.foldl_cons]
    rcases List.mem_cons.mp hmem with h | h
    · rw [h]
      rcases max_choice c y with hc | hc <;> rw [hc] <;> simp
    · exact List.mem_cons_of_mem _ (List.mem_cons_of_mem _ h)

/-- The index returned by the `std::max_element` model is in range and its
element dominates every element of the list. -/
theorem maxElementIdx_spec {l : List ℚ} {i : ℕ} (h : maxElementIdx l = some i) :
    i < l.length ∧ ∀ j, j < l.length → l.getD j 0 ≤ l.getD i 0 := by
  match l, h with
  | x :: xs, h =>
    have hi : i = (x :: xs).indexOf (xs.foldl max x) := by
      have := h.symm
      simpa [maxElementIdx] using this
    subst hi
    have hmem : xs.foldl max x ∈ x :: xs := foldlMax_mem x xs
    have hlt : (x :: xs).indexOf (xs.foldl max x) < (x :: xs).length :=
      List.indexOf_lt_length.mpr hmem
    refine ⟨hlt, ?_⟩
    intro j hj
    rw [List.getD_eq_getElem _ _ hj, List.getD_eq_getElem _ _ hlt,
      List.getElem_indexOf hlt]
    have hj2 : (x :: xs)[j] ∈ x :: xs := List.getElem_mem _
    rcases List.mem_cons.mp hj2 with hx | hx
    · rw [hx]; exact le_foldlMax le_rfl xs
    · exact mem_le_foldlMax x xs hx

/-- C2: `dominant_freq` considers only the first `buffsize/2` FFT bins,
takes the magnitude of each, locates the index of the global maximum among
them, and returns `argmax_index / (buffer_length / sample_rate)`; for an
empty buffer it returns `0.0`. -/
theorem dominant_freq_spec (C : CplxOps α) (buff : List ℚ) (rate : ℚ) :
    (buff = [] → dominant_freq C buff rate = 0) ∧
    (∀ i, maxElementIdx (halfMagnitudes C buff) = some i →
      i < buff.length / 2 ∧
      (∀ j, j < buff.length / 2 →
        (halfMagnitudes C buff).getD j 0 ≤ (halfMagnitudes C buff).getD i 0) ∧
      dominant_freq C buff rate = (i : ℚ) / ((buff.length : ℚ) / rate)) := by
  have hlen : (halfMagnitudes C buff).length = buff.length / 2 := by
    simp [halfMagnitudes]
  constructor
  · rintro rfl
    rfl
  · intro i hi
    have hspec := maxElementIdx_spec hi
    refine ⟨by rw [← hlen]; exact hspec.1, ?_, ?_⟩
    · intro j hj
      exact hspec.2 j (by rw [hlen]; exact hj)
    · simp [dominant_freq, hi]

theorem dominant_freq_spec_witness : dominant_freq ratOps [] 1 = 0 :=
  (dominant_freq_spec ratOps [] 1).1 rfl

/-- The sample encodings the tool supports (the formats of `all_formats`
that `main` dispatches on: Float32, Signed Int16, Unsigned Int16). -/
inductive Encoding
  | float32
  | int16
  | uint16
deriving DecidableEq

/-- `Pcm::min_val()`: the explicit specialization `-1.0f` for float, and
`std::numeric_limits` minima for the integer storage types. -/
def min_val : Encoding → ℚ
  | .float32 => -1
  | .int16 => -32768
  | .uint16 => 0

/-- `Pcm::max_val()`: the explicit specialization `1.0f` for float, and
`std::numeric_limits` maxima for the integer storage types. -/
def max_val : Encoding → ℚ
  | .float32 => 1
  | .int16 => 32767
  | .uint16 => 65535

/-- C-style floating-point-to-integer conversion: truncation toward 0. -/
def ratTrunc (q : ℚ) : ℤ :=
  if 0 ≤ q then ⌊q⌋ else ⌈q⌉

/-- The sample computation in the body of `Pcm::sine`, as a function of
the raw sine value `s = sin(…)`: linearly remap `[-1,1]` onto
`[min_val, max_val]`, saturate to that range, then scale by `amplitude`
(in this order, as in the source). -/
def sineSample (enc : Encoding) (s amp : ℚ) : ℚ :=
  let mn := min_val enc
  let mx := max_val enc
  let targetRange := mx - mn
  let s1 := targetRange * ((s + 1) / 2) + mn
  let s2 := if s1 > mx then mx else if s1 < mn then mn else s1
  s2 * amp

/-- The value `buff[i] = sample` actually stores: the float is converted
to the storage type — identity for float storage, truncation toward zero
for the integer storage types. -/
def storedSample (enc : Encoding) (s amp : ℚ) : ℚ :=
  match enc with
  | .float32 => sineSample enc s amp
  | .int16 => (ratTrunc (sineSample enc s amp) : ℚ)
  | .uint16 => (ratTrunc (sineSample enc s amp) : ℚ)

/-- One iteration of the `while` loop of `Pcm::sine`: the `2·period`
samples written by the inner `for` loop.  Position `i` holds the sample of
frame `t + i/2`; the source duplicates each even position into the next
odd one, and since `(i+1)/2 = i/2` for even `i`, indexing every position
with `i/2` yields the identical buffer.  `sinv k` abstracts the composite
`sin(2π · k / (rate / freq))` at frame index `k`, which has no exact
rational value. -/
def sineChunk (enc : Encoding) (amp : ℚ) (sinv : ℕ → ℚ) (period t : ℕ) : List ℚ :=
  (List.range (2 * period)).map fun i => storedSample enc (sinv (t + i / 2)) amp

/-- Fuel-indexed `while (t < rate * duration)` loop of `Pcm::sine`: each
iteration writes one period worth of frames and advances `t` by `period`.
`sine` supplies fuel that always suffices when `period > 0` (for
`period = 0` the C++ loop would never terminate). -/
def sineGo (enc : Encoding) (amp : ℚ) (sinv : ℕ → ℚ) (period : ℕ) (limit : ℚ) :
    ℕ → ℕ → List ℚ
  | 0, _ => []
  | fuel + 1, t =>
    if (t : ℚ) < limit then
      sineChunk enc amp sinv period t ++
        sineGo enc amp sinv period limit fuel (t + period)
    else []

/-- `Pcm::sine(freq, duration, amplitude)`: the full sequence of samples
written to the device across the whole loop, at negotiated rate `rate` and
hardware period size `period`. -/
def sine (enc : Encoding) (amp : ℚ) (sinv : ℕ → ℚ) (period : ℕ)
    (rate duration : ℚ) : List ℚ :=
  sineGo enc amp sinv period (rate * duration) ((⌈rate * duration⌉).toNat + 1) 0

/-- The number of iterations the sine loop performs: `⌈limit/period⌉`
(clamped to 0 when the limit is nonpositive). -/
def sineIters (period : ℕ) (limit : ℚ) : ℕ :=
  (⌈limit / (period : ℚ)⌉).toNat

/-- The claim's reference quantity, following the spec's words: the number
of frames needed to cover `duration_s` seconds at rate `R`, i.e.
`⌈R · duration⌉`. -/
def framesNeeded (rate duration : ℚ) : ℕ :=
  (⌈rate * duration⌉).toNat

theorem min_val_nonpos (enc : Encoding) : min_val enc ≤ 0 := by
  cases enc <;> norm_num [min_val]

theorem max_val_nonneg (enc : Encoding) : 0 ≤ max_val enc := by
  cases enc <;> norm_num [max_val]

theorem clampScale_bounds {mn mx v amp : ℚ} (hmn : mn ≤ 0) (hmx : 0 ≤ mx)
    (h0 : 0 ≤ amp) (h1 : amp ≤ 1) :
    mn ≤ (if v > mx then mx else if v < mn then mn else v) * amp ∧
    (if v > mx then mx else if v < mn then mn else v) * amp ≤ mx := by
  set s2 := (if v > mx then mx else if v < mn then mn else v) with hs2
  have hrange : mn ≤ s2 ∧ s2 ≤ mx := by
    rw [hs2]
    split_ifs with hgt hlt
    · exact ⟨le_trans hmn hmx, le_rfl⟩
    · exact ⟨le_rfl, le_trans hmn hmx⟩
    · push_neg at hgt hlt
      exact ⟨hlt, hgt⟩
  rcases le_or_lt 0 s2 with hpos | hneg
  · constructor
    · exact le_trans hmn (mul_nonneg hpos h0)
    · nlinarith [hrange.2]
  · constructor
    · nlinarith [hrange.1]
    · nlinarith

theorem sineSample_bounds (enc : Encoding) (s amp : ℚ)
    (h0 : 0 ≤ amp) (h1 : amp ≤ 1) :
    min_val enc ≤ sineSample enc s amp ∧ sineSample enc s amp ≤ max_val enc := by
  have h := @clampScale_bounds (min_val enc) (max_val enc)
    ((max_val enc - min_val enc) * ((s + 1) / 2) + min_val enc) amp
    (min_val_nonpos enc) (max_val_nonneg enc) h0 h1
  simpa [sineSample] using h

theorem ratTrunc_bounds {mn mx v : ℚ} (hmn : mn ≤ 0) (hmx : 0 ≤ mx)
    (h1 : mn ≤ v) (h2 : v ≤ mx) :
    mn ≤ (ratTrunc v : ℚ) ∧ (ratTrunc v : ℚ) ≤ mx := by
  unfold ratTrunc
  split_ifs with h
  · constructor
    · refine le_trans hmn ?_
      exact_mod_cast Int.floor_nonneg.mpr h
    · exact le_trans (Int.floor_le v) h2
  · push_neg at h
    constructor
    · exact le_trans h1 (Int.le_ceil v)
    · refine le_trans ?_ hmx
      have : ⌈v⌉ ≤ (0 : ℤ) := Int.ceil_le.mpr (by exact_mod_cast h.le)
      exact_mod_cast this

theorem storedSample_bounds (enc : Encoding) (s amp : ℚ)
    (h0 : 0 ≤ amp) (h1 : amp ≤ 1) :
    min_val enc ≤ storedSample enc s amp ∧ storedSample enc s amp ≤ max_val enc := by
  have hb := sineSample_bounds enc s amp h0 h1
  cases enc with
  | float32 => exact hb
  | int16 =>
    exact ratTrunc_bounds (min_val_nonpos .int16) (max_val_nonneg .int16) hb.1 hb.2
  | uint16 =>
    exact ratTrunc_bounds (min_val_nonpos .uint16) (max_val_nonneg .uint16) hb.1 hb.2

theorem sineGo_mem {enc : Encoding} {amp : ℚ} {sinv : ℕ → ℚ} {period : ℕ}
    {limit : ℚ} :
    ∀ (fuel t : ℕ) (x : ℚ), x ∈ sineGo enc amp sinv period limit fuel t →
      ∃ k, x = storedSample enc (sinv k) amp := by
  intro fuel
  induction fuel with
  | zero => intro t x hx; cases hx
  | succ n ih =>
    intro t x hx
    by_cases hc : (t : ℚ) < limit
    · simp only [sineGo, hc, if_true] at hx
      rcases List.mem_append.mp hx with h | h
      · have h2 : ∃ i, i < 2 * period ∧ storedSample enc (sinv (t + i / 2)) amp = x := by
          simpa [sineChunk] using h
        obtain ⟨i, _, hi⟩ := h2
        exact ⟨t + i / 2, hi.symm⟩
      · exact ih _ x h
    · simp only [sineGo, hc, if_false] at hx
      cases hx

/-- C5: every sample value the signal generator produces — for every
supported encoding, every sine value, duration and period, and every
amplitude in `[0,1]` — lies within `[min_val, max_val]` of the encoding:
the value is remapped into the range, saturated there (never wrapped), and
the subsequent amplitude scaling cannot leave the range. -/
theorem sine_samples_in_range (enc : Encoding) (amp : ℚ) (sinv : ℕ → ℚ)
    (period : ℕ) (rate duration : ℚ) (x : ℚ)
    (h0 : 0 ≤ amp) (h1 : amp ≤ 1)
    (hx : x ∈ sine enc amp sinv period rate duration) :
    min_val enc ≤ x ∧ x ≤ max_val enc := by
  obtain ⟨k, rfl⟩ := sineGo_mem _ _ _ hx
  exact storedSample_bounds enc (sinv k) amp h0 h1

theorem sine_samples_in_range_witness :
    min_val .int16 ≤ (0 : ℚ) ∧ (0 : ℚ) ≤ max_val .int16 :=
  sine_samples_in_range .int16 1 (fun _ => 0) 1 1 1 0
    (by norm_num) (by norm_num)
    (by norm_num [sine, sineGo, sineChunk, storedSample, sineSample, ratTrunc,
      min_val, max_val, show ⌈-(1/2 : ℚ)⌉ = 0 from by norm_num])

theorem sineChunk_length (enc : Encoding) (amp : ℚ) (sinv : ℕ → ℚ)
    (period t : ℕ) : (sineChunk enc amp sinv period t).length = 2 * period := by
  simp [sineChunk]

theorem sineGo_length {enc : Encoding} {amp : ℚ} {sinv : ℕ → ℚ}
    {period : ℕ} {limit : ℚ} (hp : 0 < period) :
    ∀ (fuel t : ℕ), (⌈(limit - t) / (period : ℚ)⌉).toNat ≤ fuel →
      (sineGo enc amp sinv period limit fuel t).length
        = 2 * period * (⌈(limit - t) / (period : ℚ)⌉).toNat := by
  have hpos : (0 : ℚ) < (period : ℚ) := by exact_mod_cast hp
  intro fuel
  induction fuel with
  | zero =>
    intro t hfuel
    have h0 : (⌈(limit - t) / (period : ℚ)⌉).toNat = 0 := Nat.le_zero.mp hfuel
    simp [sineGo, h0]
  | succ n ih =>
    intro t hfuel
    by_cases hc : (t : ℚ) < limit
    · have hstep : ⌈(limit - t) / (period : ℚ)⌉
          = ⌈(limit - ((t + period : ℕ) : ℚ)) / (period : ℚ)⌉ + 1 := by
        have harg : (limit - ((t + period : ℕ) : ℚ)) / (period : ℚ)
            = (limit - t) / (period : ℚ) - 1 := by
          push_cast
          field_simp
          ring
        rw [harg, Int.ceil_sub_one]
        ring
      have hge1 : 1 ≤ ⌈(limit - t) / (period : ℚ)⌉ := by
        have : (0 : ℚ) < (limit - t) / (period : ℚ) :=
          div_pos (by linarith) hpos
        exact Int.ceil_pos.mpr this
      have hc0 : 0 ≤ ⌈(limit - ((t + period : ℕ) : ℚ)) / (period : ℚ)⌉ := by
        omega
      have htn : (⌈(limit - t) / (period : ℚ)⌉).toNat
          = (⌈(limit - ((t + period : ℕ) : ℚ)) / (period : ℚ)⌉).toNat + 1 := by
        omega
      have hrec := ih (t + period) (by omega)
      simp only [sineGo, hc, if_true, List.length_append, sineChunk_length, hrec, htn]
      ring
    · have hle : limit ≤ (t : ℚ) := le_of_not_lt hc
      have hnp : (limit - t) / (period : ℚ) ≤ 0 := by
        apply div_nonpos_iff.mpr
        right
        exact ⟨by linarith, le_of_lt hpos⟩
      have h0 : (⌈(limit - t) / (period : ℚ)⌉).toNat = 0 := by
        have hceil0 : ⌈(limit - t) / (period : ℚ)⌉ ≤ (0 : ℤ) :=
          Int.ceil_le.mpr (by exact_mod_cast hnp)
        omega
      simp [sineGo, hc, h0]

/-- C6 (amended): the generator emits frames in whole hardware periods:
with `period > 0` it produces exactly `period · ⌈rate·duration / period⌉`
frames (each frame two interleaved samples) — never fewer than the
`⌈rate·duration⌉` frames needed to cover the duration, but up to
`period - 1` more, not exactly the needed count. -/
theorem sine_frame_count (enc : Encoding) (amp : ℚ) (sinv : ℕ → ℚ)
    (period : ℕ) (rate duration : ℚ) (hp : 0 < period) :
    (sine enc amp sinv period rate duration).length
      = 2 * (period * sineIters period (rate * duration)) ∧
    framesNeeded rate duration ≤ period * sineIters period (rate * duration) := by
  have hpos : (0 : ℚ) < (period : ℚ) := by exact_mod_cast hp
  set L := rate * duration with hL
  have hiter0 : (⌈(L - ((0 : ℕ) : ℚ)) / (period : ℚ)⌉).toNat = sineIters period L := by
    simp [sineIters]
  rcases le_or_lt L 0 with hneg | hposL
  · have hz : sineIters period L = 0 := by
      have hnp : L / (period : ℚ) ≤ 0 := by
        apply div_nonpos_iff.mpr
        right
        exact ⟨hneg, le_of_lt hpos⟩
      have hceil0 : ⌈L / (period : ℚ)⌉ ≤ (0 : ℤ) :=
        Int.ceil_le.mpr (by exact_mod_cast hnp)
      simp only [sineIters]
      omega
    have hfn : framesNeeded rate duration = 0 := by
      have : ⌈L⌉ ≤ 0 := Int.ceil_le.mpr (by simpa using hneg)
      simp only [framesNeeded, ← hL]
      omega
    have hlen := @sineGo_length enc amp sinv period L hp ((⌈L⌉).toNat + 1) 0
      (by rw [hiter0, hz]; omega)
    rw [sine, ← hL] at *
    rw [hlen, hiter0, hz, hfn]
    simp
  · -- positive limit
    have hfuel : sineIters period L ≤ (⌈L⌉).toNat + 1 := by
      have hdle : L / (period : ℚ) ≤ L := by
        apply div_le_self (le_of_lt hposL)
        exact_mod_cast hp
      have := Int.ceil_le_ceil hdle
      simp only [sineIters]
      omega
    have hlen := @sineGo_length enc amp sinv period L hp ((⌈L⌉).toNat + 1) 0
      (by rw [hiter0]; omega)
    constructor
    · rw [sine, ← hL, hlen, hiter0]
      ring
    · -- framesNeeded ≤ period * sineIters
      have hc1 : 1 ≤ ⌈L / (period : ℚ)⌉ :=
        Int.ceil_pos.mpr (div_pos hposL hpos)
      obtain ⟨m, hm⟩ : ∃ m : ℕ, ⌈L / (period : ℚ)⌉ = (m : ℤ) :=
        ⟨(⌈L / (period : ℚ)⌉).toNat, by omega⟩
      have hLle : L ≤ ((period * m : ℕ) : ℚ) := by
        have h1 : L / (period : ℚ) ≤ ((m : ℤ) : ℚ) := by
          rw [← hm]; exact Int.le_ceil _
        push_cast
        push_cast at h1
        calc L = L / (period : ℚ) * (period : ℚ) := by field_simp
          _ ≤ (m : ℚ) * (period : ℚ) := by
              exact mul_le_mul_of_nonneg_right h1 (le_of_lt hpos)
          _ = (period : ℚ) * (m : ℚ) := by ring
      have hceil : ⌈L⌉ ≤ ((period * m : ℕ) : ℤ) := by
        have := Int.ceil_le_ceil hLle
        rwa [Int.ceil_natCast] at this
      have hiters : sineIters period L = m := by
        simp only [sineIters, hm]
        omega
      rw [hiters]
      simp only [framesNeeded, ← hL]
      omega

theorem sine_frame_count_witness :
    (sine .int16 0 (fun _ => 0) 3 4 1).length = 2 * (3 * sineIters 3 (4 * 1)) ∧
    framesNeeded 4 1 ≤ 3 * sineIters 3 (4 * 1) :=
  sine_frame_count .int16 0 (fun _ => 0) 3 4 1 (by norm_num)

/-- C6 counterexample: with hardware period 3, rate 4 and duration 1 the
generator writes 6 frames (12 interleaved samples) although exactly 4
frames cover the duration — more frames than needed, refuting
"no fewer and no more". -/
theorem sine_frame_count_counterexample :
    (sine .int16 0 (fun _ => 0) 3 4 1).length = 12 ∧
    framesNeeded 4 1 = 4 ∧
    (sine .int16 0 (fun _ => 0) 3 4 1).length ≠ 2 * framesNeeded 4 1 := by
  refine ⟨?_, ?_, ?_⟩
  · norm_num [sine, sineGo, sineChunk, storedSample, sineSample, ratTrunc,
      min_val, max_val]
  · norm_num [framesNeeded]
    decide
  · norm_num [sine, sineGo, sineChunk, storedSample, sineSample, ratTrunc,
      min_val, max_val, framesNeeded]
    decide

/-- Stream direction (`Pcm::Mode`). -/
inductive Mode
  | playback
  | capture
deriving DecidableEq

/-- What the destructor does to the stream before closing the handle. -/
inductive CloseAction
  | drain
  | drop
deriving DecidableEq

/-- The state of a `Pcm` object after the constructor returns.
`streamDir` is the direction the ALSA stream was actually opened with (the
constructor's `mode` parameter, used only for `snd_pcm_open`); `mode` is
the member field `Pcm::mode`, which the constructor never assigns — it
holds an indeterminate value, modelled by an explicit argument below. -/
structure PcmState where
  deviceName : String
  streamDir : Mode
  mode : Mode

/-- `Pcm::Pcm(device_name, mode)`: opens the stream in direction `m`;
`junk` is the indeterminate value left in the never-assigned member
`mode`. -/
def pcmConstruct (deviceName : String) (m : Mode) (junk : Mode) : PcmState :=
  { deviceName := deviceName, streamDir := m, mode := junk }

/-- `Pcm::~Pcm()`: switches on the member `mode` — `playback` drains,
`capture` drops — then closes the handle. -/
def pcmCloseAction (p : PcmState) : CloseAction :=
  match p.mode with
  | .playback => .drain
  | .capture => .drop

/-- The close dispatch the spec describes: drain a playback stream, drop a
capture stream — i.e. dispatch on the stream's actual direction. -/
def specCloseAction (p : PcmState) : CloseAction :=
  match p.streamDir with
  | .playback => .drain
  | .capture => .drop

/-- C7 (code bug): the constructor never stores its `mode` parameter into
the member the destructor dispatches on, so a capture stream whose
indeterminate member happens to hold the `playback` value is drained
instead of dropped on destruction. -/
theorem pcm_destructor_mode_bug :
    pcmCloseAction (pcmConstruct "default" .capture .playback) = .drain ∧
    specCloseAction (pcmConstruct "default" .capture .playback) = .drop :=
  ⟨rfl, rfl⟩

/-- The fixed reference tone of `loopback_test` (`test_freq = 440.0f`). -/
def test_freq : ℚ := 440

/-- `buffsize = ceil(float(sampling_rate * 2) * duration)` of
`loopback_test`, as a sample count. -/
def buffSize (rate duration : ℚ) : ℕ :=
  (⌈rate * 2 * duration⌉).toNat

/-- The capture buffer as the analysis sees it: zero-filled at the start
of the attempt, then overwritten by the capture thread with the samples
the hardware delivered, truncated or zero-padded to the buffer size. -/
def padTo (n : ℕ) (l : List ℚ) : List ℚ :=
  (l ++ List.replicate n 0).take n

/-- The hardware environment one `loopback_test` call runs against: per
attempt index, whether opening and configuring the capture and the
playback stream succeed (`snd_pcm_open`/`set_params` throw `AlsaError`
otherwise), and which samples the capture thread deposits. -/
structure LoopEnv where
  captureOpen : ℕ → Bool
  captureConfig : ℕ → Bool
  playbackOpen : ℕ → Bool
  playbackConfig : ℕ → Bool
  captured : ℕ → List ℚ

/-- The events of one attempt relevant to the ordering claims: spawning
the capture thread, joining it, analyzing the buffer. -/
inductive Ev
  | spawn
  | join
  | analyze
deriving DecidableEq

/-- How one iteration of the attempt loop ends. -/
inductive AttemptOutcome
  | throwsOut
  | caughtFail
  | pass
  | noDetect
deriving DecidableEq

/-- One iteration of the `for (int attempt …)` loop of `loopback_test`,
following the source statement by statement: open and configure the
capture stream (both calls precede the `try` block, so an `AlsaError`
there escapes the function: `throwsOut`); spawn the capture thread; inside
`try`, open and configure the playback stream (an `AlsaError` there is
caught, the thread is joined, and 1 is returned: `caughtFail`), generate
the tone, drain, join; then analyze the buffer: `pass` when the dominant
frequency is positive and within `epsilon = 5/duration + 1` of the
reference, `noDetect` otherwise (fall through to the next attempt).
Returns the outcome together with the attempt's event trace. -/
def attemptStep (C : CplxOps α) (env : LoopEnv) (duration rate : ℚ) (i : ℕ) :
    AttemptOutcome × List Ev :=
  if env.captureOpen i then
    if env.captureConfig i then
      if env.playbackOpen i then
        if env.playbackConfig i then
          let buff := padTo (buffSize rate duration) (env.captured i)
          let dominant := dominant_freq C buff (rate * 2)
          let outcome :=
            if dominant > 0 then
              if |test_freq - dominant| ≤ 5 / duration + 1 then
                AttemptOutcome.pass
              else AttemptOutcome.noDetect
            else AttemptOutcome.noDetect
          (outcome, [.spawn, .join, .analyze])
        else (.caughtFail, [.spawn, .join])
      else (.caughtFail, [.spawn, .join])
    else (.throwsOut, [])
  else (.throwsOut, [])

def attemptOutcome (C : CplxOps α) (env : LoopEnv) (duration rate : ℚ)
    (i : ℕ) : AttemptOutcome :=
  (attemptStep C env duration rate i).1

def attemptTrace (C : CplxOps α) (env : LoopEnv) (duration rate : ℚ)
    (i : ℕ) : List Ev :=
  (attemptStep C env duration rate i).2

/-- How a `loopback_test` call ends: `raised` models an `AlsaError`
escaping the function, `exit c` a normal `return c`. -/
inductive LoopResult
  | raised
  | exit (code : ℤ)
deriving DecidableEq

/-- The attempt loop of `loopback_test`: up to `fuel` further attempts
starting at attempt index `i`; returns the result together with the number
of attempts actually started. -/
def loopbackGo (C : CplxOps α) (env : LoopEnv) (duration rate : ℚ) :
    ℕ → ℕ → LoopResult × ℕ
  | 0, _ => (.exit 1, 0)
  | fuel + 1, i =>
    match attemptOutcome C env duration rate i with
    | .throwsOut => (.raised, 1)
    | .caughtFail => (.exit 1, 1)
    | .pass => (.exit 0, 1)
    | .noDetect =>
      let p := loopbackGo C env duration rate fuel (i + 1)
      (p.1, p.2 + 1)

/-- `loopback_test(duration, sampling_rate, capture_pcm, playback_pcm)`:
the 3-attempt loop. -/
def loopback_test (C : CplxOps α) (env : LoopEnv) (duration rate : ℚ) :
    LoopResult × ℕ :=
  loopbackGo C env duration rate 3 0

/-- Environment in which every device operation succeeds and the capture
thread deposits nothing. -/
def envAllOk : LoopEnv where
  captureOpen := fun _ => true
  captureConfig := fun _ => true
  playbackOpen := fun _ => true
  playbackConfig := fun _ => true
  captured := fun _ => []

/-- Environment in which opening the capture stream fails on every
attempt. -/
def envCaptureFail : LoopEnv where
  captureOpen := fun _ => false
  captureConfig := fun _ => true
  playbackOpen := fun _ => true
  playbackConfig := fun _ => true
  captured := fun _ => []

/-- Environment in which opening the playback stream fails on every
attempt, the capture side being fine. -/
def envPlaybackFail : LoopEnv where
  captureOpen := fun _ => true
  captureConfig := fun _ => true
  playbackOpen := fun _ => false
  playbackConfig := fun _ => true
  captured := fun _ => []

/-- C1 counterexample: a capture-side open failure in the first attempt
makes the `AlsaError` escape `loopback_test` (the open precedes the `try`
block), and a playback-side open failure makes the function return failure
after a single attempt instead of retrying — refuting both "the
orchestrator catches it at the attempt boundary, proceeds to the next
attempt" and "never lets the error propagate out of loopback_test". -/
theorem loopback_error_propagates :
    loopback_test ratOps envCaptureFail 1 1 = (.raised, 1) ∧
    loopback_test ratOps envPlaybackFail 1 1 = (.exit 1, 1) := by
  constructor <;> rfl

/-- C1 (amended): device errors are not uniformly "failed attempts".  In
the first attempt that does not fall through: a capture-side
open/configure error escapes `loopback_test` as an exception (those calls
precede the `try` block), while a playback-side open/configure error is
caught at the attempt boundary, the capture thread is joined, and the
function returns failure immediately — in neither case does the loop
proceed to a further attempt. -/
theorem loopback_error_behavior (C : CplxOps α) (env : LoopEnv)
    (duration rate : ℚ) (i : ℕ) (hi : i < 3)
    (hprev : ∀ j, j < i → attemptOutcome C env duration rate j = .noDetect) :
    (attemptOutcome C env duration rate i = .throwsOut →
      loopback_test C env duration rate = (.raised, i + 1)) ∧
    (attemptOutcome C env duration rate i = .caughtFail →
      loopback_test C env duration rate = (.exit 1, i + 1)) := by
  interval_cases i
  · constructor <;> intro h <;> simp [loopback_test, loopbackGo, h]
  · have h0 := hprev 0 (by omega)
    constructor <;> intro h <;> simp [loopback_test, loopbackGo, h0, h]
  · have h0 := hprev 0 (by omega)
    have h1 := hprev 1 (by omega)
    constructor <;> intro h <;> simp [loopback_test, loopbackGo, h0, h1, h]

theorem loopback_error_behavior_witness :
    loopback_test ratOps envCaptureFail 1 1 = (.raised, 0 + 1) :=
  (loopback_error_behavior ratOps envCaptureFail 1 1 0 (by norm_num)
    (fun j hj => absurd hj (by omega))).1 rfl

/-- Unfolding of the outcome of an attempt with no device error. -/
theorem attemptOutcome_ok (C : CplxOps α) (env : LoopEnv)
    (duration rate : ℚ) (i : ℕ)
    (h1 : env.captureOpen i = true) (h2 : env.captureConfig i = true)
    (h3 : env.playbackOpen i = true) (h4 : env.playbackConfig i = true) :
    attemptOutcome C env duration rate i =
      (if dominant_freq C (padTo (buffSize rate duration) (env.captured i))
            (rate * 2) > 0 then
        if |test_freq - dominant_freq C
              (padTo (buffSize rate duration) (env.captured i)) (rate * 2)|
            ≤ 5 / duration + 1 then
          AttemptOutcome.pass
        else AttemptOutcome.noDetect
      else AttemptOutcome.noDetect) := by
  simp only [attemptOutcome, attemptStep, h1, h2, h3, h4, if_true]

/-- C3: in an attempt with no device error, the attempt passes exactly
when the frequency detected by the spectral analyzer on the captured
interleaved stereo buffer — run with effective sampling rate
`sample_rate × 2` — is positive and within `5/duration + 1` of the 440 Hz
reference. -/
theorem attempt_pass_iff (C : CplxOps α) (env : LoopEnv)
    (duration rate : ℚ) (i : ℕ)
    (h1 : env.captureOpen i = true) (h2 : env.captureConfig i = true)
    (h3 : env.playbackOpen i = true) (h4 : env.playbackConfig i = true) :
    attemptOutcome C env duration rate i = .pass ↔
      (0 < dominant_freq C (padTo (buffSize rate duration) (env.captured i))
            (rate * 2) ∧
       |440 - dominant_freq C (padTo (buffSize rate duration) (env.captured i))
            (rate * 2)| ≤ 5 / duration + 1) := by
  rw [attemptOutcome_ok C env duration rate i h1 h2 h3 h4]
  set d := dominant_freq C (padTo (buffSize rate duration) (env.captured i))
    (rate * 2) with hd
  by_cases hpos : d > 0
  · rw [if_pos hpos]
    by_cases hdev : |test_freq - d| ≤ 5 / duration + 1
    · rw [if_pos hdev]
      constructor
      · intro _
        exact ⟨hpos, by simpa [test_freq] using hdev⟩
      · intro _
        rfl
    · rw [if_neg hdev]
      constructor
      · intro h
        simp at h
      · intro h
        exact absurd (by simpa [test_freq] using h.2) hdev
  · rw [if_neg hpos]
    constructor
    · intro h
      simp at h
    · intro h
      exact absurd h.1 hpos

theorem attempt_pass_iff_witness :
    attemptOutcome ratOps envAllOk 1 1 0 = .pass ↔
      (0 < dominant_freq ratOps (padTo (buffSize 1 1) (envAllOk.captured 0))
            (1 * 2) ∧
       |440 - dominant_freq ratOps (padTo (buffSize 1 1) (envAllOk.captured 0))
            (1 * 2)| ≤ 5 / 1 + 1) :=
  attempt_pass_iff ratOps envAllOk 1 1 0 rfl rfl rfl rfl

theorem loopbackGo_count_le (C : CplxOps α) (env : LoopEnv)
    (duration rate : ℚ) :
    ∀ (fuel i : ℕ), (loopbackGo C env duration rate fuel i).2 ≤ fuel := by
  intro fuel
  induction fuel with
  | zero =>
    intro i
    simp [loopbackGo]
  | succ n ih =>
    intro i
    cases h : attemptOutcome C env duration rate i with
    | throwsOut => simp [loopbackGo, h]
    | caughtFail => simp [loopbackGo, h]
    | pass => simp [loopbackGo, h]
    | noDetect =>
      have hrec := ih (i + 1)
      simp only [loopbackGo, h]
      omega

/-- C8: `loopback_test` performs at most 3 attempts, and when no device
error occurs and no attempt detects the reference tone within tolerance,
it returns failure after exactly 3 attempts. -/
theorem loopback_attempt_limit (C : CplxOps α) (env : LoopEnv)
    (duration rate : ℚ) :
    (loopback_test C env duration rate).2 ≤ 3 ∧
    ((∀ i, i < 3 → attemptOutcome C env duration rate i = .noDetect) →
      loopback_test C env duration rate = (.exit 1, 3)) := by
  constructor
  · exact loopbackGo_count_le C env duration rate 3 0
  · intro h
    have h0 := h 0 (by omega)
    have h1 := h 1 (by omega)
    have h2 := h 2 (by omega)
    simp [loopback_test, loopbackGo, h0, h1, h2]

theorem loopback_attempt_limit_witness :
    (loopback_test ratOps envAllOk 0 1).2 ≤ 3 ∧
    loopback_test ratOps envAllOk 0 1 = (.exit 1, 3) :=
  ⟨(loopback_attempt_limit ratOps envAllOk 0 1).1,
   (loopback_attempt_limit ratOps envAllOk 0 1).2 (fun i _ => by
     norm_num [attemptOutcome, attemptStep, envAllOk, padTo, buffSize,
       dominant_freq, halfMagnitudes, maxElementIdx, test_freq])⟩

/-- C9: within every attempt the capture thread is joined before the
captured buffer is analyzed — every `analyze` event in the attempt's trace
is preceded by a `join` event, on the normal path and on the device-error
paths alike — and a spawned capture thread is always joined. -/
theorem join_before_analysis (C : CplxOps α) (env : LoopEnv)
    (duration rate : ℚ) (i : ℕ) :
    (∀ j : ℕ, (attemptTrace C env duration rate i)[j]? = some Ev.analyze →
      ∃ k : ℕ, k < j ∧ (attemptTrace C env duration rate i)[k]? = some Ev.join) ∧
    (Ev.spawn ∈ attemptTrace C env duration rate i →
      Ev.join ∈ attemptTrace C env duration rate i) := by
  have htr : attemptTrace C env duration rate i = [] ∨
      attemptTrace C env duration rate i = [.spawn, .join] ∨
      attemptTrace C env duration rate i = [.spawn, .join, .analyze] := by
    unfold attemptTrace attemptStep
    split_ifs <;> simp
  rcases htr with h | h | h <;> rw [h]
  · constructor
    · intro j hj
      simp at hj
    · intro hs
      simp at hs
  · constructor
    · intro j hj
      rcases j with _ | _ | n
      · exact absurd hj (by simp)
      · exact absurd hj (by simp)
      · exact absurd hj (by simp)
    · intro _
      simp
  · constructor
    · intro j hj
      rcases j with _ | _ | _ | n
      · exact absurd hj (by simp)
      · exact absurd hj (by simp)
      · exact ⟨1, by omega, by simp⟩
      · exact absurd hj (by simp)
    · intro _
      simp

theorem join_before_analysis_witness :
    ∃ k : ℕ, k < 2 ∧ (attemptTrace ratOps envAllOk 1 1 0)[k]? = some Ev.join :=
  (join_before_analysis ratOps envAllOk 1 1 0).1 2
    (by norm_num [attemptTrace, attemptStep, envAllOk])

/-- The hard-coded device name `fallback_loopback` skips. -/
def excludedDevice : String := "surround40:CARD=PCH,DEV=0"

/-- The inner loop of `fallback_loopback`: for a fixed playback device
`p`, try `loopback_test` with every capture device in order;
`loopback_test` returning 0 is success, a nonzero return or an `AlsaError`
(caught by the surrounding `try`) moves on to the next capture device.
`run rcd p` is the result of `loopback_test(duration, rate, rcd, p)`
against the hardware. -/
def tryRecorders (run : String → String → LoopResult) (p : String) :
    List String → Bool
  | [] => false
  | rcd :: rest =>
    if run rcd p = .exit 0 then true else tryRecorders run p rest

/-- The outer loop of `fallback_loopback`: iterate over the playback
devices, skipping the one hard-excluded name, and within each over all
capture devices; return 0 on the first passing pair, 1 after all pairs
are exhausted. -/
def fallbackGo (run : String → String → LoopResult) (rcds : List String) :
    List String → ℤ
  | [] => 1
  | p :: ps =>
    if p = excludedDevice then fallbackGo run rcds ps
    else if tryRecorders run p rcds then 0
    else fallbackGo run rcds ps

/-- `fallback_loopback(duration, sampling_rate, _, _)`: the playback list
is `get_devices("Output") ++ get_devices("Both")`, the capture list
`get_devices("Input") ++ get_devices("Both")` (bidirectional devices are
in both lists); then exhaustive pairing as above. -/
def fallback_loopback (run : String → String → LoopResult)
    (outputs inputs boths : List String) : ℤ :=
  fallbackGo run (inputs ++ boths) (outputs ++ boths)

/-- Refinement model following the claim's words: the known-incompatible
device name is excluded from the pairing altogether (from the capture side
as well as the playback side), and the search succeeds exactly when some
remaining pair passes. -/
def fallbackSpecBothExcluded (run : String → String → LoopResult)
    (outputs inputs boths : List String) : ℤ :=
  let playback := (outputs ++ boths).filter (fun p => p ≠ excludedDevice)
  let rcds := (inputs ++ boths).filter (fun r => r ≠ excludedDevice)
  if playback.any (fun p => rcds.any (fun r => run r p = .exit 0)) then 0 else 1

theorem tryRecorders_eq_true_iff (run : String → String → LoopResult)
    (p : String) :
    ∀ rcds : List String, tryRecorders run p rcds = true ↔
      ∃ rcd ∈ rcds, run rcd p = .exit 0 := by
  intro rcds
  induction rcds with
  | nil => simp [tryRecorders]
  | cons r rest ih =>
    by_cases h : run r p = .exit 0
    · simp [tryRecorders, h]
    · simp only [tryRecorders, h, if_false, ih, List.mem_cons]
      constructor
      · rintro ⟨rcd, hm, hr⟩
        exact ⟨rcd, Or.inr hm, hr⟩
      · rintro ⟨rcd, hm | hm, hr⟩
        · rw [hm] at hr
          exact absurd hr h
        · exact ⟨rcd, hm, hr⟩

theorem fallbackGo_eq_zero_iff (run : String → String → LoopResult)
    (rcds : List String) :
    ∀ ps : List String, fallbackGo run rcds ps = 0 ↔
      ∃ p ∈ ps, p ≠ excludedDevice ∧ ∃ rcd ∈ rcds, run rcd p = .exit 0 := by
  intro ps
  induction ps with
  | nil => simp [fallbackGo]
  | cons p rest ih =>
    by_cases hex : p = excludedDevice
    · simp only [fallbackGo, hex, if_true, ih, List.mem_cons]
      constructor
      · rintro ⟨q, hm, hq⟩
        exact ⟨q, Or.inr hm, hq⟩
      · rintro ⟨q, hm | hm, hq⟩
        · rw [hm] at hq
          exact absurd rfl hq.1
        · exact ⟨q, hm, hq⟩
    · by_cases htry : tryRecorders run p rcds = true
      · simp only [fallbackGo, hex, if_false, htry, if_true, List.mem_cons]
        constructor
        · intro _
          exact ⟨p, Or.inl rfl, hex, (tryRecorders_eq_true_iff run p rcds).mp htry⟩
        · intro _
          trivial
      · have htry2 : tryRecorders run p rcds = false := by
          revert htry
          cases tryRecorders run p rcds <;> simp
        simp only [fallbackGo, hex, if_false, htry2, Bool.false_eq_true, ih,
          List.mem_cons]
        constructor
        · rintro ⟨q, hm, hq⟩
          exact ⟨q, Or.inr hm, hq⟩
        · rintro ⟨q, hm | hm, hq⟩
          · exfalso
            apply htry
            rw [hm] at hq
            exact (tryRecorders_eq_true_iff run p rcds).mpr hq.2
          · exact ⟨q, hm, hq⟩

theorem fallbackGo_zero_or_one (run : String → String → LoopResult)
    (rcds : List String) :
    ∀ ps : List String, fallbackGo run rcds ps = 0 ∨ fallbackGo run rcds ps = 1 := by
  intro ps
  induction ps with
  | nil => right; rfl
  | cons p rest ih =>
    by_cases hex : p = excludedDevice
    · simpa [fallbackGo, hex] using ih
    · by_cases htry : tryRecorders run p rcds = true
      · left
        simp [fallbackGo, hex, htry]
      · have htry2 : tryRecorders run p rcds = false := by
          revert htry
          cases tryRecorders run p rcds <;> simp
        simpa [fallbackGo, hex, htry2] using ih

/-- C4 (amended): the fallback enumerates all playback-capable and all
capture-capable devices (bidirectional ones in both lists) and tries
`loopback_test` on every (capture, playback) pair whose playback device is
not the hard-excluded name — the exclusion applies only to the playback
side, so the excluded name is still used as a capture device — returning
success exactly when one such pair passes and failure only after every
such pair has failed. -/
theorem fallback_pairing (run : String → String → LoopResult)
    (outputs inputs boths : List String) :
    (fallback_loopback run outputs inputs boths = 0 ↔
      ∃ p ∈ outputs ++ boths, p ≠ excludedDevice ∧
        ∃ rcd ∈ inputs ++ boths, run rcd p = .exit 0) ∧
    (fallback_loopback run outputs inputs boths = 1 ↔
      ¬ ∃ p ∈ outputs ++ boths, p ≠ excludedDevice ∧
        ∃ rcd ∈ inputs ++ boths, run rcd p = .exit 0) := by
  have h0 := fallbackGo_eq_zero_iff run (inputs ++ boths) (outputs ++ boths)
  have h01 := fallbackGo_zero_or_one run (inputs ++ boths) (outputs ++ boths)
  constructor
  · exact h0
  · constructor
    · intro h1 hex
      have := h0.mpr hex
      rw [fallback_loopback] at *
      omega
    · intro hex
      rcases h01 with h | h
      · exact absurd (h0.mp h) hex
      · exact h

/-- C4 counterexample: when the excluded name shows up in the capture list
(here as an input device) and a pair using it as the capture side passes,
the code returns success — while under the claim's reading (the excluded
device removed from the pairing) every remaining pair has failed and the
search must report failure. -/
theorem fallback_exclusion_counterexample :
    fallback_loopback
      (fun rcd _ => if rcd = excludedDevice then .exit 0 else .exit 1)
      ["front:CARD=PCH,DEV=0"] [excludedDevice] [] = 0 ∧
    fallbackSpecBothExcluded
      (fun rcd _ => if rcd = excludedDevice then .exit 0 else .exit 1)
      ["front:CARD=PCH,DEV=0"] [excludedDevice] [] = 1 := by
  constructor
  · rfl
  · rfl

theorem fallback_pairing_witness :
    fallback_loopback
      (fun rcd _ => if rcd = excludedDevice then .exit 0 else .exit 1)
      ["front:CARD=PCH,DEV=0"] [excludedDevice] [] = 0 :=
  (fallback_pairing
    (fun rcd _ => if rcd = excludedDevice then .exit 0 else .exit 1)
    ["front:CARD=PCH,DEV=0"] [excludedDevice] []).1.mpr
    ⟨"front:CARD=PCH,DEV=0", by simp, by decide, excludedDevice, by simp, by decide⟩
